import Mathlib

/-!
Verification of the latent-space alignment core of the unified-LS repository
(`src/utils/rotate.py`): extraction of per-chain latent coordinate matrices
from posterior draws, Procrustes-based alignment of those matrices across
chains to a reference chain, and reconstruction of a draws table with the
aligned coordinates substituted in place.

The draws table is modelled as a list of rows (one per draw), each row a
function from column names to rational cell values, together with the list
of column names.  Matrices are `Matrix (Fin n) (Fin D)` over `ℚ` (table
side) or `ℝ` (alignment side); chain identifiers are rationals.  Fallible
operations return `Except RotateError`.
-/

namespace UnifiedLS

/-- Fuel-driven decimal digit rendering; the fuel only forces structural
recursion and is irrelevant once it exceeds the argument. -/
def digitsListAux : ℕ → ℕ → List Char
  | 0, _ => []
  | fuel + 1, n =>
    if n < 10 then [Nat.digitChar n]
    else digitsListAux fuel (n / 10) ++ [Nat.digitChar (n % 10)]

/-- Decimal digit list of a natural number, most significant digit first.
Mirrors the decimal rendering that Python string interpolation performs on
the 1-based indices in `f"{prefix}[{i + 1},{d + 1}]"`. -/
def digitsList (n : ℕ) : List Char :=
  digitsListAux (n + 1) n

/-- Decimal string of a natural number. -/
def natToStr (n : ℕ) : String :=
  ⟨digitsList n⟩

/-- The Stan parameter-column naming convention used throughout
`src/utils/rotate.py`: `f"{prefix}[{i + 1},{d + 1}]"` with 0-based loop
indices `i`, `d`. -/
def paramName (pfx : String) (i d : ℕ) : String :=
  pfx ++ "[" ++ natToStr (i + 1) ++ "," ++ natToStr (d + 1) ++ "]"

/-- A draws table: column names plus one row per draw.  A row maps a column
name to the cell value.  The chain identifier lives in column `chain__`,
following the Stan output format the module assumes. -/
structure Table where
  cols : List String
  rows : List (String → ℚ)

/-- Errors surfaced by the extraction and alignment routines. -/
inductive RotateError where
  | missingParameter : String → RotateError
  | keyError : ℚ → RotateError
  | valueError : String → RotateError
deriving DecidableEq

/-- Fuel-driven first-appearance deduplication; the fuel only forces
structural recursion and is irrelevant once it reaches the list length. -/
def uniqueFirstAux : ℕ → List ℚ → List ℚ
  | 0, _ => []
  | _, [] => []
  | fuel + 1, x :: xs =>
    x :: uniqueFirstAux fuel (xs.filter (fun y => decide (y ≠ x)))

/-- Distinct values of a list in order of first appearance, as
`pandas.Series.unique` returns them for the `chain__` column. -/
def uniqueFirst (l : List ℚ) : List ℚ :=
  uniqueFirstAux l.length l

/-- The rows of the table that belong to the given chain
(`df_draws[df_draws["chain__"] == chain_id]`). -/
def chainRows (t : Table) (c : ℚ) : List (String → ℚ) :=
  t.rows.filter (fun r => decide (r "chain__" = c))

/-- Arithmetic mean of a column over the given rows
(`chain_df.drop(columns="chain__").mean()` evaluated at one column). -/
def colMean (rs : List (String → ℚ)) (nm : String) : ℚ :=
  (rs.map (fun r => r nm)).sum / rs.length

/-- The full list of parameter-column names required for a prefix,
in the iteration order of the two nested loops (`i` outer, `d` inner). -/
def requiredNames (n D : ℕ) (pfx : String) : List String :=
  (List.finRange n).flatMap
    (fun i => (List.finRange D).map (fun d => paramName pfx i.val d.val))

/-- First required parameter column that is not available to
`mean_params[param_name]`: either absent from the table or equal to the
dropped `chain__` column.  `none` means every required column is present. -/
def missingName (t : Table) (n D : ℕ) (pfx : String) : Option String :=
  (requiredNames n D pfx).find?
    (fun nm => decide ¬(nm ∈ t.cols ∧ nm ≠ "chain__"))

/-- The coordinate matrix for one chain: entry `[i, d]` is the mean of
column `prefix[i+1,d+1]` over that chain's rows. -/
def chainMatrix (t : Table) (n D : ℕ) (pfx : String) (c : ℚ) :
    Matrix (Fin n) (Fin D) ℚ :=
  Matrix.of fun i d => colMean (chainRows t c) (paramName pfx i.val d.val)

/-- Per-chain extraction loop of `extract_latent_coordinates`: the first
missing parameter column raises, otherwise each chain contributes its
matrix of per-column means. -/
def extractChains (t : Table) (n D : ℕ) (pfx : String) :
    List ℚ → Except RotateError (List (ℚ × Matrix (Fin n) (Fin D) ℚ))
  | [] => .ok []
  | c :: cs =>
    match missingName t n D pfx with
    | some nm => .error (.missingParameter nm)
    | none =>
      match extractChains t n D pfx cs with
      | .error e => .error e
      | .ok rest => .ok ((c, chainMatrix t n D pfx c) :: rest)

/-- `extract_latent_coordinates(df_draws, n_entities, D, prefix)` from
`src/utils/rotate.py`: for each distinct chain value of the `chain__`
column, the `(n_entities, D)` matrix of per-column means for the
`prefix[i,d]` columns; a missing required column fails the call. -/
def extract_latent_coordinates (t : Table) (n D : ℕ) (pfx : String) :
    Except RotateError (List (ℚ × Matrix (Fin n) (Fin D) ℚ)) :=
  extractChains t n D pfx (uniqueFirst (t.rows.map (fun r => r "chain__")))

/-- Overwrite the cell in column `nm` with `v` for every row of chain
`cid`, provided the column exists in the table; otherwise the table is
unchanged (`if param_name in aligned_draws.columns: aligned_draws.loc[...]`). -/
def setCell (t : Table) (cid : ℚ) (nm : String) (v : ℚ) : Table :=
  if nm ∈ t.cols then
    { t with
      rows := t.rows.map (fun r =>
        if r "chain__" = cid then (fun c => if c = nm then v else r c) else r) }
  else t

/-- The `(i, d)` index pairs visited by the nested replacement loops,
`i` outer, `d` inner. -/
def idPairs (n D : ℕ) : List (Fin n × Fin D) :=
  (List.finRange n).flatMap
    (fun i => (List.finRange D).map (fun d => (i, d)))

/-- Overwrite the cells named by a list of `(i, d)` pairs. -/
def applyList {n D : ℕ} (pfx : String) (cid : ℚ)
    (coords : Matrix (Fin n) (Fin D) ℚ) (l : List (Fin n × Fin D))
    (t : Table) : Table :=
  l.foldl
    (fun acc p => setCell acc cid (paramName pfx p.1.val p.2.val) (coords p.1 p.2))
    t

/-- Apply one chain's aligned coordinate matrix to the table: every
coordinate column that exists is overwritten for that chain's rows. -/
def applyCoords {n D : ℕ} (t : Table) (pfx : String) (cid : ℚ)
    (coords : Matrix (Fin n) (Fin D) ℚ) : Table :=
  applyList pfx cid coords (idPairs n D) t

/-- `create_aligned_draws_dataframe` from `src/utils/rotate.py`: a copy of
the draws table in which, for each chain of the aligned person map, the
`xi[i,d]` columns are overwritten with the chain's aligned person
coordinates, and likewise `zt_centered[i,d]` from the aligned item map. -/
def create_aligned_draws_dataframe {np ni D : ℕ} (t : Table)
    (apc : List (ℚ × Matrix (Fin np) (Fin D) ℚ))
    (aic : List (ℚ × Matrix (Fin ni) (Fin D) ℚ)) : Table :=
  let t1 := apc.foldl (fun acc cm => applyCoords acc "xi" cm.1 cm.2) t
  aic.foldl (fun acc cm => applyCoords acc "zt_centered" cm.1 cm.2) t1

/-- The cell of row `j` in column `nm`, when row `j` exists. -/
def cellAt (t : Table) (j : ℕ) (nm : String) : Option ℚ :=
  (t.rows.get? j).map (fun r => r nm)

instance exceptDecEq {e a : Type _} [DecidableEq e] [DecidableEq a] :
    DecidableEq (Except e a) := fun x y =>
  match x, y with
  | .ok u, .ok v => decidable_of_iff (u = v) (by simp)
  | .error u, .error v => decidable_of_iff (u = v) (by simp)
  | .ok _, .error _ => isFalse (by simp)
  | .error _, .ok _ => isFalse (by simp)

/-- Lookup in a chain coordinate map, keyed by chain identifier. -/
def lookupQ {α : Type _} : List (ℚ × α) → ℚ → Option α
  | [], _ => none
  | p :: rest, k => if p.1 = k then some p.2 else lookupQ rest k

open Matrix in
/-- `np.vstack([P, I])`: persons stacked over items. -/
def vstack {np ni D : ℕ} (P : Matrix (Fin np) (Fin D) ℝ)
    (Im : Matrix (Fin ni) (Fin D) ℝ) : Matrix (Fin (np + ni)) (Fin D) ℝ :=
  Matrix.of fun i d =>
    if h : (i : ℕ) < np then P ⟨i, h⟩ d
    else Im ⟨(i : ℕ) - np, by have := i.2; omega⟩ d

/-- First `np` rows of the stacked matrix (`aligned_matrix[:n_persons, :]`). -/
def splitTop {np ni D : ℕ} (M : Matrix (Fin (np + ni)) (Fin D) ℝ) :
    Matrix (Fin np) (Fin D) ℝ :=
  Matrix.of fun i d => M ⟨(i : ℕ), by have := i.2; omega⟩ d

/-- Remaining rows of the stacked matrix (`aligned_matrix[n_persons:, :]`). -/
def splitBot {np ni D : ℕ} (M : Matrix (Fin (np + ni)) (Fin D) ℝ) :
    Matrix (Fin ni) (Fin D) ℝ :=
  Matrix.of fun i d => M ⟨np + (i : ℕ), by have := i.2; omega⟩ d

/-- All-ones square matrix, used to express column sums. -/
def onesMat (m : ℕ) : Matrix (Fin m) (Fin m) ℝ :=
  Matrix.of fun _ _ => 1

/-- Modelled from the spec: the centering step of `scipy.spatial.procrustes`
(`mtx -= np.mean(mtx, 0)`), whose source is not part of this repository;
the spec describes it as translating both configurations to remove the
centroid offset.  `(onesMat m * M) i d` is the `d`-th column sum, so this
subtracts each column's mean from every entry. -/
noncomputable def center {m D : ℕ} (M : Matrix (Fin m) (Fin D) ℝ) :
    Matrix (Fin m) (Fin D) ℝ :=
  M - ((m : ℝ))⁻¹ • (onesMat m * M)

/-- Squared Frobenius norm, `np.linalg.norm(mtx) ** 2`. -/
def frobNormSq {m D : ℕ} (M : Matrix (Fin m) (Fin D) ℝ) : ℝ :=
  ∑ i, ∑ d, (M i d) ^ 2

/-- Modelled from the spec: the standardization of `scipy.spatial.procrustes`
(`mtx -= mean; mtx /= np.linalg.norm(mtx)`): the centered matrix rescaled to
unit Frobenius norm. -/
noncomputable def standardize {m D : ℕ} (M : Matrix (Fin m) (Fin D) ℝ) :
    Matrix (Fin m) (Fin D) ℝ :=
  (Real.sqrt (frobNormSq (center M)))⁻¹ • center M

open Matrix Classical in
/-- Modelled from the spec: `scipy.linalg.orthogonal_procrustes(A, B)`,
whose source is not part of this repository.  The spec requires standard
Procrustes semantics: the orthogonal matrix `R` minimizing `‖A R - B‖_F`,
i.e. maximizing `trace (Rᵀ (Aᵀ B))`, together with the scale
`s = Σ singular values of Aᵀ B`, which equals the attained maximum. -/
noncomputable def orthogonal_procrustes {m D : ℕ}
    (A B : Matrix (Fin m) (Fin D) ℝ) : Matrix (Fin D) (Fin D) ℝ × ℝ :=
  if h : ∃ R : Matrix (Fin D) (Fin D) ℝ, Rᵀ * R = 1 ∧
      ∀ R2 : Matrix (Fin D) (Fin D) ℝ, R2ᵀ * R2 = 1 →
        Matrix.trace (R2ᵀ * (Aᵀ * B)) ≤ Matrix.trace (Rᵀ * (Aᵀ * B))
  then (h.choose, Matrix.trace (h.chooseᵀ * (Aᵀ * B)))
  else (1, 0)

open Matrix Classical in
/-- Modelled from the spec: `scipy.spatial.procrustes(data1, data2)`, whose
source is not part of this repository.  Per the spec's description of
standard Procrustes semantics: both configurations are centered and scaled
to unit Frobenius norm (raising on an empty or degenerate input), the
optimal orthogonal transform and scale are applied to the second, and the
disparity is the remaining sum of squared residuals.  Returns
`(mtx1, mtx2, disparity)` as scipy does. -/
noncomputable def procrustes {m D : ℕ} (A B : Matrix (Fin m) (Fin D) ℝ) :
    Except RotateError
      (Matrix (Fin m) (Fin D) ℝ × Matrix (Fin m) (Fin D) ℝ × ℝ) :=
  if m = 0 ∨ D = 0 then .error (.valueError "input matrices must be of nonzero size")
  else if frobNormSq (center A) = 0 ∨ frobNormSq (center B) = 0 then
    .error (.valueError "input matrices must contain more than one unique point")
  else
    let A2 := standardize A
    let B2 := standardize B
    let Rs := orthogonal_procrustes A2 B2
    let Ba := Rs.2 • (B2 * Rs.1ᵀ)
    .ok (A2, Ba, frobNormSq (A2 - Ba))

/-- Output of `align_latent_spaces`: aligned person and item coordinate
maps, plus the per-chain disparities reported (printed) along the way. -/
structure AlignResult (np ni D : ℕ) where
  personOut : List (ℚ × Matrix (Fin np) (Fin D) ℝ)
  itemOut : List (ℚ × Matrix (Fin ni) (Fin D) ℝ)
  log : List (ℚ × ℝ)

/-- The per-chain loop of `align_latent_spaces`: the reference chain is
skipped, every other chain's stacked configuration is Procrustes-aligned to
the reference matrix and split back into person and item blocks. -/
noncomputable def alignLoop {np ni D : ℕ}
    (refM : Matrix (Fin (np + ni)) (Fin D) ℝ)
    (ic : List (ℚ × Matrix (Fin ni) (Fin D) ℝ)) (refId : ℚ) :
    List (ℚ × Matrix (Fin np) (Fin D) ℝ) → AlignResult np ni D →
      Except RotateError (AlignResult np ni D)
  | [], acc => .ok acc
  | cm :: rest, acc =>
    if cm.1 = refId then alignLoop refM ic refId rest acc
    else
      match lookupQ ic cm.1 with
      | none => .error (.keyError cm.1)
      | some xitm =>
        match procrustes refM (vstack cm.2 xitm) with
        | .error e => .error e
        | .ok (_, aligned, disp) =>
          alignLoop refM ic refId rest
            ⟨acc.personOut ++ [(cm.1, splitTop aligned)],
             acc.itemOut ++ [(cm.1, splitBot aligned)],
             acc.log ++ [(cm.1, disp)]⟩

/-- `align_latent_spaces(person_coords, item_coords, ref_chain_id)` from
`src/utils/rotate.py`: builds the stacked reference configuration, copies
the reference chain's coordinates unchanged into both outputs, and aligns
every other chain of the person map to the reference via Procrustes,
splitting the result back into person and item blocks. -/
noncomputable def align_latent_spaces {np ni D : ℕ}
    (pc : List (ℚ × Matrix (Fin np) (Fin D) ℝ))
    (ic : List (ℚ × Matrix (Fin ni) (Fin D) ℝ)) (refId : ℚ) :
    Except RotateError (AlignResult np ni D) :=
  match lookupQ pc refId, lookupQ ic refId with
  | some pr, some ir =>
    alignLoop (vstack pr ir) ic refId pc ⟨[(refId, pr)], [(refId, ir)], []⟩
  | _, _ => .error (.keyError refId)

/-! Concrete data used to evaluate the definitions on closed inputs. -/

/-- Constant real matrix. -/
def cMat (np D : ℕ) (x : ℝ) : Matrix (Fin np) (Fin D) ℝ :=
  Matrix.of fun _ _ => x

/-- Two person coordinates, both at 1, for the evaluation scenario. -/
def Pmat : Matrix (Fin 2) (Fin 1) ℝ := cMat 2 1 1

/-- Two item coordinates, both at -1, for the evaluation scenario. -/
def Imat : Matrix (Fin 2) (Fin 1) ℝ := cMat 2 1 (-1)

/-- Standardized person block of the evaluation scenario. -/
noncomputable def Phalf : Matrix (Fin 2) (Fin 1) ℝ := cMat 2 1 (1 / 2)

/-- Standardized item block of the evaluation scenario. -/
noncomputable def Ihalf : Matrix (Fin 2) (Fin 1) ℝ := cMat 2 1 (-(1 / 2))

/-- Person coordinate map: chain 2 equals chain 1 rotated by the identity. -/
def pcW : List (ℚ × Matrix (Fin 2) (Fin 1) ℝ) := [(1, Pmat), (2, Pmat)]

/-- Item coordinate map of the evaluation scenario. -/
def icW : List (ℚ × Matrix (Fin 2) (Fin 1) ℝ) := [(1, Imat), (2, Imat)]

/-- The alignment output of the evaluation scenario. -/
noncomputable def resW : AlignResult 2 2 1 :=
  ⟨[(1, Pmat), (2, Phalf)], [(1, Imat), (2, Ihalf)], [(2, 0)]⟩

/-- One-chain person map for the chain-set-mismatch scenario. -/
def pc9 : List (ℚ × Matrix (Fin 1) (Fin 1) ℝ) := [(1, cMat 1 1 1)]

/-- Two-chain item map for the chain-set-mismatch scenario: chain 2 appears
only here. -/
def ic9 : List (ℚ × Matrix (Fin 1) (Fin 1) ℝ) := [(1, cMat 1 1 2), (2, cMat 1 1 3)]

/-- A concrete draw row: chain identifier plus one person and one item
coordinate column. -/
def rowW (chain v w : ℚ) : String → ℚ := fun c =>
  if c = "chain__" then chain
  else if c = "xi[1,1]" then v
  else if c = "zt_centered[1,1]" then w
  else 0

/-- Concrete draws table: two draws of chain 1 and one draw of chain 2,
with per-chain constant coordinates. -/
def tW : Table :=
  ⟨["chain__", "xi[1,1]", "zt_centered[1,1]"],
   [rowW 1 5 7, rowW 1 5 7, rowW 2 6 8]⟩

/-- Draws table with a chain column but no draws and no parameter columns. -/
def tE : Table := ⟨["chain__"], []⟩

/-- Constant rational matrix. -/
def Mq (x : ℚ) : Matrix (Fin 1) (Fin 1) ℚ := Matrix.of fun _ _ => x

/-- Aligned person coordinates for the rewriting scenario. -/
def apcW : List (ℚ × Matrix (Fin 1) (Fin 1) ℚ) := [(1, Mq 10), (2, Mq 20)]

/-- Aligned item coordinates for the rewriting scenario. -/
def aicW : List (ℚ × Matrix (Fin 1) (Fin 1) ℚ) := [(1, Mq 30), (2, Mq 40)]

/-- Draws table whose only draw belongs to chain 3, which no aligned map
covers. -/
def tW3 : Table :=
  ⟨["chain__", "xi[1,1]", "zt_centered[1,1]"], [rowW 3 5 7]⟩

/-- Draws table with one draw but no parameter columns at all. -/
def tM : Table := ⟨["chain__"], [rowW 1 0 0]⟩

/-- Two-chain person map for the missing-item-chain scenario. -/
def pc9b : List (ℚ × Matrix (Fin 1) (Fin 1) ℝ) := [(1, cMat 1 1 1), (2, cMat 1 1 2)]

/-- One-chain item map for the missing-item-chain scenario: chain 2 is
absent. -/
def ic9b : List (ℚ × Matrix (Fin 1) (Fin 1) ℝ) := [(1, cMat 1 1 3)]

/-- Alignment output of the one-chain scenario: only the reference chain. -/
def res9 : AlignResult 1 1 1 := ⟨[(1, cMat 1 1 1)], [(1, cMat 1 1 2)], []⟩

/-! Properties of the decimal rendering and the column naming scheme. -/

theorem strData (s t : String) : (s ++ t).data = s.data ++ t.data := rfl

theorem digitsListAux_irrel : ∀ n f1 f2 : ℕ, n < f1 → n < f2 →
    digitsListAux f1 n = digitsListAux f2 n := by
  intro n
  induction n using Nat.strong_induction_on with
  | _ n ih =>
    intro f1 f2 h1 h2
    rcases Nat.exists_eq_succ_of_ne_zero (show f1 ≠ 0 by omega) with ⟨g1, rfl⟩
    rcases Nat.exists_eq_succ_of_ne_zero (show f2 ≠ 0 by omega) with ⟨g2, rfl⟩
    by_cases h10 : n < 10
    · simp [digitsListAux, h10]
    · have hdiv : n / 10 < n := Nat.div_lt_self (by omega) (by omega)
      simp only [digitsListAux, if_neg h10]
      rw [ih (n / 10) hdiv g1 g2 (by omega) (by omega)]

theorem digitsList_lt {n : ℕ} (h : n < 10) : digitsList n = [Nat.digitChar n] := by
  rw [digitsList, digitsListAux, if_pos h]

theorem digitsList_ge {n : ℕ} (h : ¬ n < 10) :
    digitsList n = digitsList (n / 10) ++ [Nat.digitChar (n % 10)] := by
  have hdiv : n / 10 < n := Nat.div_lt_self (by omega) (by omega)
  rw [digitsList, digitsListAux, if_neg h, digitsList,
    digitsListAux_irrel (n / 10) n (n / 10 + 1) hdiv (by omega)]

theorem digitsList_ne_nil (n : ℕ) : digitsList n ≠ [] := by
  by_cases h : n < 10
  · rw [digitsList_lt h]; simp
  · rw [digitsList_ge h]; simp

theorem digitChar_inj10 :
    ∀ a < 10, ∀ b < 10, Nat.digitChar a = Nat.digitChar b → a = b := by decide

theorem digitsList_inj : ∀ m n : ℕ, digitsList m = digitsList n → m = n := by
  intro m
  induction m using Nat.strong_induction_on with
  | _ m ih =>
    intro n h
    by_cases hm : m < 10 <;> by_cases hn : n < 10
    · rw [digitsList_lt hm, digitsList_lt hn] at h
      exact digitChar_inj10 m hm n hn (List.singleton_injective h)
    · rw [digitsList_lt hm, digitsList_ge hn] at h
      have hl := congrArg List.length h
      simp at hl
      exact absurd hl (digitsList_ne_nil _)
    · rw [digitsList_ge hm, digitsList_lt hn] at h
      have hl := congrArg List.length h
      simp at hl
      exact absurd hl (digitsList_ne_nil _)
    · rw [digitsList_ge hm, digitsList_ge hn] at h
      obtain ⟨h1, h2⟩ := List.append_inj' h (by simp)
      have hdiv : m / 10 = n / 10 :=
        ih (m / 10) (Nat.div_lt_self (by omega) (by omega)) _ h1
      have hmod : m % 10 = n % 10 :=
        digitChar_inj10 _ (Nat.mod_lt _ (by omega)) _ (Nat.mod_lt _ (by omega))
          (List.singleton_injective h2)
      omega

theorem digitsList_mem {n : ℕ} {c : Char} (h : c ∈ digitsList n) :
    ∃ k, k < 10 ∧ c = Nat.digitChar k := by
  induction n using Nat.strong_induction_on with
  | _ n ih =>
    by_cases hn : n < 10
    · rw [digitsList_lt hn] at h
      simp at h
      exact ⟨n, hn, h⟩
    · rw [digitsList_ge hn] at h
      rcases List.mem_append.mp h with h1 | h2
      · exact ih (n / 10) (Nat.div_lt_self (by omega) (by omega)) h1
      · simp at h2
        exact ⟨n % 10, Nat.mod_lt _ (by omega), h2⟩

theorem digitsList_no_comma {n : ℕ} {c : Char} (h : c ∈ digitsList n) : c ≠ ',' := by
  obtain ⟨k, hk, rfl⟩ := digitsList_mem h
  have hall : ∀ k < 10, Nat.digitChar k ≠ ',' := by decide
  exact hall k hk

/-- Splitting a character list at a separator that occurs in neither head
part is unambiguous. -/
theorem sepSplit : ∀ (A B r s : List Char), (∀ c ∈ A, c ≠ ',') →
    (∀ c ∈ B, c ≠ ',') → A ++ ',' :: r = B ++ ',' :: s → A = B ∧ r = s := by
  intro A
  induction A with
  | nil =>
    intro B r s _ hB h
    cases B with
    | nil => simpa using h
    | cons b bs =>
      simp at h
      exact absurd h.1.symm (hB b (by simp))
  | cons a as ih =>
    intro B r s hA hB h
    cases B with
    | nil =>
      simp at h
      exact absurd h.1 (hA a (by simp))
    | cons b bs =>
      simp at h
      obtain ⟨rfl, h2⟩ := h
      obtain ⟨rfl, rfl⟩ := ih bs r s (fun c hc => hA c (by simp [hc]))
        (fun c hc => hB c (by simp [hc])) h2
      exact ⟨rfl, rfl⟩

theorem paramName_data (pfx : String) (i d : ℕ) :
    (paramName pfx i d).data =
      pfx.data ++ '[' :: (digitsList (i + 1) ++ ',' :: (digitsList (d + 1) ++ [']'])) := by
  show (pfx ++ "[" ++ natToStr (i + 1) ++ "," ++ natToStr (d + 1) ++ "]").data = _
  rw [strData, strData, strData, strData, strData]
  simp [natToStr]

theorem paramName_inj {pfx : String} {i d i2 d2 : ℕ}
    (h : paramName pfx i d = paramName pfx i2 d2) : i = i2 ∧ d = d2 := by
  have hd := congrArg String.data h
  rw [paramName_data, paramName_data] at hd
  have h1 := List.append_cancel_left hd
  have h2 := List.cons_injective h1
  obtain ⟨h3, h4⟩ := sepSplit _ _ _ _
    (fun c hc => digitsList_no_comma hc) (fun c hc => digitsList_no_comma hc) h2
  have hi : i + 1 = i2 + 1 := digitsList_inj _ _ h3
  obtain ⟨h5, -⟩ := List.append_inj' h4 (by simp)
  have hdd : d + 1 = d2 + 1 := digitsList_inj _ _ h5
  omega

theorem xi_ne_chain (i d : ℕ) : paramName "xi" i d ≠ "chain__" := by
  intro h
  have hd := congrArg String.data h
  rw [paramName_data] at hd
  simp at hd

theorem zt_ne_chain (i d : ℕ) : paramName "zt_centered" i d ≠ "chain__" := by
  intro h
  have hd := congrArg String.data h
  rw [paramName_data] at hd
  simp at hd

theorem xi_ne_zt (i d i2 d2 : ℕ) :
    paramName "xi" i d ≠ paramName "zt_centered" i2 d2 := by
  intro h
  have hd := congrArg String.data h
  rw [paramName_data, paramName_data] at hd
  simp at hd

/-! Properties of the extractor. -/

theorem uniqueFirstAux_irrel (l : List ℚ) (f1 f2 : ℕ)
    (h1 : l.length ≤ f1) (h2 : l.length ≤ f2) :
    uniqueFirstAux f1 l = uniqueFirstAux f2 l := by
  match l, f1, f2 with
  | [], f1, f2 => cases f1 <;> cases f2 <;> rfl
  | x :: xs, g1 + 1, g2 + 1 =>
    simp only [uniqueFirstAux]
    rw [uniqueFirstAux_irrel (xs.filter (fun y => decide (y ≠ x))) g1 g2
      (le_trans (List.length_filter_le _ _) (by simpa using h1))
      (le_trans (List.length_filter_le _ _) (by simpa using h2))]
  termination_by l.length
  decreasing_by
    simp only [List.length_cons]
    exact Nat.lt_succ_of_le (List.length_filter_le _ _)

theorem uniqueFirst_cons (x : ℚ) (xs : List ℚ) :
    uniqueFirst (x :: xs) = x :: uniqueFirst (xs.filter (fun y => decide (y ≠ x))) := by
  rw [uniqueFirst, uniqueFirst]
  show uniqueFirstAux (xs.length + 1) (x :: xs) = _
  simp only [uniqueFirstAux]
  rw [uniqueFirstAux_irrel _ xs.length _ (List.length_filter_le _ _) le_rfl]

theorem mem_uniqueFirst (l : List ℚ) (c : ℚ) (h : c ∈ uniqueFirst l) : c ∈ l := by
  match l with
  | [] => simp [uniqueFirst, uniqueFirstAux] at h
  | x :: xs =>
    rw [uniqueFirst_cons] at h
    rcases List.mem_cons.mp h with rfl | h2
    · exact List.mem_cons_self _ _
    · exact List.mem_cons_of_mem _
        (List.mem_of_mem_filter (mem_uniqueFirst _ c h2))
  termination_by l.length
  decreasing_by
    simp only [List.length_cons]
    exact Nat.lt_succ_of_le (List.length_filter_le _ _)

theorem nodup_uniqueFirst (l : List ℚ) : (uniqueFirst l).Nodup := by
  match l with
  | [] => simp [uniqueFirst, uniqueFirstAux]
  | x :: xs =>
    rw [uniqueFirst_cons]
    refine List.nodup_cons.mpr ⟨fun hx => ?_, nodup_uniqueFirst _⟩
    have := List.of_mem_filter (mem_uniqueFirst _ x hx)
    simp at this
  termination_by l.length
  decreasing_by
    simp only [List.length_cons]
    exact Nat.lt_succ_of_le (List.length_filter_le _ _)

theorem extractChains_ok {t : Table} {n D : ℕ} {pfx : String} :
    ∀ {cl : List ℚ} {l : List (ℚ × Matrix (Fin n) (Fin D) ℚ)},
      extractChains t n D pfx cl = .ok l →
      l = cl.map (fun c => (c, chainMatrix t n D pfx c)) := by
  intro cl
  induction cl with
  | nil => intro l h; simpa [extractChains] using h.symm
  | cons c cs ih =>
    intro l h
    rw [extractChains] at h
    match hm : missingName t n D pfx with
    | some nm => rw [hm] at h; exact absurd h (by simp)
    | none =>
      rw [hm] at h
      match hrec : extractChains t n D pfx cs with
      | .error e => rw [hrec] at h; exact absurd h (by simp)
      | .ok rest =>
        rw [hrec] at h
        simp only [Except.ok.injEq] at h
        subst h
        simp [ih hrec]

theorem extractChains_missing {t : Table} {n D : ℕ} {pfx : String} {nm : String}
    (hm : missingName t n D pfx = some nm) (c : ℚ) (cs : List ℚ) :
    extractChains t n D pfx (c :: cs) = .error (.missingParameter nm) := by
  rw [extractChains, hm]

theorem sum_col_const {nm : String} {v : ℚ} :
    ∀ rs : List (String → ℚ), (∀ r ∈ rs, r nm = v) →
      (rs.map (fun r => r nm)).sum = rs.length * v := by
  intro rs
  induction rs with
  | nil => simp
  | cons r rest ih =>
    intro h
    simp only [List.map_cons, List.sum_cons, List.length_cons]
    rw [h r (by simp), ih (fun r2 hr2 => h r2 (by simp [hr2]))]
    push_cast
    ring

theorem colMean_const {rs : List (String → ℚ)} {nm : String} {v : ℚ}
    (hne : rs ≠ []) (hc : ∀ r ∈ rs, r nm = v) : colMean rs nm = v := by
  have hlen : (rs.length : ℚ) ≠ 0 := by
    have := List.length_pos.mpr hne
    positivity
  rw [colMean, sum_col_const rs hc, mul_comm, mul_div_assoc, div_self hlen, mul_one]

theorem chainRows_ne_nil {t : Table} {c : ℚ}
    (h : c ∈ uniqueFirst (t.rows.map (fun r => r "chain__"))) :
    chainRows t c ≠ [] := by
  have hmem := mem_uniqueFirst _ _ h
  obtain ⟨r, hr, hrc⟩ := List.mem_map.mp hmem
  have : r ∈ chainRows t c := by
    rw [chainRows, List.mem_filter]
    exact ⟨hr, by simp [hrc]⟩
  exact List.ne_nil_of_mem this

/-- C2: for every draws table with a chain column and all required
`prefix[i,d]` columns, `extract_latent_coordinates` returns one
`n_entities × D` matrix per distinct chain value (in order of first
appearance, without repetition), whose `[i, d]` entry is the arithmetic
mean of column `prefix[i+1,d+1]` over exactly that chain's rows; when a
column is constant within a chain, the entry equals that constant
exactly. -/
theorem extract_mean_correct {n D : ℕ} (t : Table) (pfx : String)
    (l : List (ℚ × Matrix (Fin n) (Fin D) ℚ))
    (hok : extract_latent_coordinates t n D pfx = .ok l) :
    l.map Prod.fst = uniqueFirst (t.rows.map (fun r => r "chain__")) ∧
    (l.map Prod.fst).Nodup ∧
    (∀ p ∈ l, ∀ (i : Fin n) (d : Fin D),
      p.2 i d = colMean (chainRows t p.1) (paramName pfx i.val d.val)) ∧
    (∀ p ∈ l, ∀ (i : Fin n) (d : Fin D) (v : ℚ),
      (∀ r ∈ chainRows t p.1, r (paramName pfx i.val d.val) = v) →
        p.2 i d = v) := by
  rw [extract_latent_coordinates] at hok
  have hl := extractChains_ok hok
  subst hl
  have hfst : (((uniqueFirst (t.rows.map (fun r => r "chain__"))).map
      (fun c => (c, chainMatrix t n D pfx c))).map Prod.fst)
      = uniqueFirst (t.rows.map (fun r => r "chain__")) := by
    rw [List.map_map]
    simp [Function.comp_def]
  refine ⟨hfst, by rw [hfst]; exact nodup_uniqueFirst _, ?_, ?_⟩
  · intro p hp i d
    obtain ⟨c, -, rfl⟩ := List.mem_map.mp hp
    rfl
  · intro p hp i d v hv
    obtain ⟨c, hc, rfl⟩ := List.mem_map.mp hp
    exact colMean_const (chainRows_ne_nil hc) hv

/-- Witness for C2: on a concrete table with per-chain constant columns,
extraction succeeds and each chain's entry is exactly the constant. -/
theorem extract_mean_correct_witness :
    extract_latent_coordinates tW 1 1 "xi" =
      .ok [(1, chainMatrix tW 1 1 "xi" 1), (2, chainMatrix tW 1 1 "xi" 2)] ∧
    chainMatrix tW 1 1 "xi" 1 0 0 = 5 ∧ chainMatrix tW 1 1 "xi" 2 0 0 = 6 :=
  ⟨rfl,
    (extract_mean_correct tW "xi"
      [(1, chainMatrix tW 1 1 "xi" 1), (2, chainMatrix tW 1 1 "xi" 2)] rfl).2.2.2
      (1, chainMatrix tW 1 1 "xi" 1) (List.mem_cons_self _ _) 0 0 5 (by decide),
    (extract_mean_correct tW "xi"
      [(1, chainMatrix tW 1 1 "xi" 1), (2, chainMatrix tW 1 1 "xi" 2)] rfl).2.2.2
      (2, chainMatrix tW 1 1 "xi" 2)
      (List.mem_cons_of_mem _ (List.mem_cons_self _ _)) 0 0 6 (by decide)⟩

/-- Counterexample for C7: a draws table with zero rows and a missing
required parameter column makes `extract_latent_coordinates` return an
empty map successfully instead of failing. -/
theorem extract_missing_parameter_counterexample :
    paramName "xi" 0 0 ∉ tE.cols ∧
    extract_latent_coordinates tE 1 1 "xi" = .ok [] := by
  exact ⟨by decide, rfl⟩

/-- C7 (amended): for every draws table containing at least one draw row,
if some required column `prefix[i+1,d+1]` is not available, then
`extract_latent_coordinates` fails with a `missingParameter` error and
produces no coordinate map. -/
theorem extract_missing_parameter_error {n D : ℕ} (t : Table) (pfx : String)
    (hrows : t.rows ≠ []) (i : Fin n) (d : Fin D)
    (hmiss : ¬(paramName pfx i.val d.val ∈ t.cols ∧
      paramName pfx i.val d.val ≠ "chain__")) :
    ∃ nm, extract_latent_coordinates t n D pfx =
      .error (.missingParameter nm) := by
  have hmem : paramName pfx i.val d.val ∈ requiredNames n D pfx := by
    rw [requiredNames]
    rw [List.mem_flatMap]
    exact ⟨i, List.mem_finRange i, List.mem_map.mpr ⟨d, List.mem_finRange d, rfl⟩⟩
  have hsome : (missingName t n D pfx).isSome := by
    rw [missingName, List.find?_isSome]
    exact ⟨_, hmem, by simp only [decide_eq_true_eq]; tauto⟩
  obtain ⟨nm, hnm⟩ := Option.isSome_iff_exists.mp hsome
  obtain ⟨r, rs, hr⟩ := List.exists_cons_of_ne_nil hrows
  rw [extract_latent_coordinates, hr, List.map_cons, uniqueFirst_cons]
  exact ⟨nm, extractChains_missing hnm _ _⟩

/-- Witness for C7 (amended): a one-row table lacking the single required
column fails with a missing-parameter error. -/
theorem extract_missing_parameter_error_witness :
    tM.rows ≠ [] ∧
    ¬(paramName "xi" 0 0 ∈ tM.cols ∧ paramName "xi" 0 0 ≠ "chain__") ∧
    ∃ nm, extract_latent_coordinates tM 1 1 "xi" =
      .error (.missingParameter nm) :=
  ⟨by simp [tM], by decide,
    extract_missing_parameter_error tM "xi" (by simp [tM]) 0 0 (by decide)⟩

/-! Properties of the rewriter. -/

theorem setCell_cols (t : Table) (cid : ℚ) (nm : String) (v : ℚ) :
    (setCell t cid nm v).cols = t.cols := by
  rw [setCell]
  split <;> rfl

theorem setCell_length (t : Table) (cid : ℚ) (nm : String) (v : ℚ) :
    (setCell t cid nm v).rows.length = t.rows.length := by
  rw [setCell]
  split <;> simp

theorem setCell_untouched {t : Table} {j : ℕ} {r : String → ℚ} {cid : ℚ}
    {nm : String} {v : ℚ} (hrow : t.rows.get? j = some r)
    (hr : r "chain__" ≠ cid) :
    (setCell t cid nm v).rows.get? j = some r := by
  rw [setCell]
  split
  · rw [List.get?_map, hrow]
    simp [hr]
  · exact hrow

theorem setCell_step {t : Table} {j : ℕ} {r : String → ℚ} {cid : ℚ}
    {nm : String} {v : ℚ} (hrow : t.rows.get? j = some r) :
    ∃ r2, (setCell t cid nm v).rows.get? j = some r2 ∧
      (∀ nm2, nm2 ≠ nm → r2 nm2 = r nm2) ∧
      (nm ∈ t.cols → r "chain__" = cid → r2 nm = v) ∧
      ((nm ∉ t.cols ∨ r "chain__" ≠ cid) → r2 nm = r nm) := by
  rw [setCell]
  by_cases hmem : nm ∈ t.cols
  · rw [if_pos hmem]
    by_cases hc : r "chain__" = cid
    · refine ⟨fun c => if c = nm then v else r c, ?_, ?_, ?_, ?_⟩
      · rw [List.get?_map, hrow]
        simp [hc]
      · intro nm2 h2; simp [h2]
      · intro _ _; simp
      · intro h; rcases h with h | h
        · exact absurd hmem h
        · exact absurd hc h
    · refine ⟨r, ?_, fun _ _ => rfl, fun _ hc2 => absurd hc2 hc, fun _ => rfl⟩
      rw [List.get?_map, hrow]
      simp [hc]
  · rw [if_neg hmem]
    exact ⟨r, hrow, fun _ _ => rfl, fun hm => absurd hm hmem, fun _ => rfl⟩

theorem setCell_cellAt_ne {t : Table} {cid : ℚ} {nm nm2 : String} {v : ℚ}
    (h : nm2 ≠ nm) (j : ℕ) :
    cellAt (setCell t cid nm v) j nm2 = cellAt t j nm2 := by
  rw [cellAt, cellAt, setCell]
  split
  · rw [List.get?_map]
    cases t.rows.get? j with
    | none => rfl
    | some r =>
      show some ((if r "chain__" = cid then
        (fun c => if c = nm then v else r c) else r) nm2) = some (r nm2)
      rw [apply_ite (fun f : String → ℚ => f nm2)]
      simp [h]
  · rfl

theorem applyList_cols {n D : ℕ} (pfx : String) (cid : ℚ)
    (coords : Matrix (Fin n) (Fin D) ℚ) :
    ∀ (l : List (Fin n × Fin D)) (t : Table),
      (applyList pfx cid coords l t).cols = t.cols := by
  intro l
  induction l with
  | nil => intro t; rfl
  | cons p tl ih =>
    intro t
    rw [applyList, List.foldl_cons, ← applyList, ih, setCell_cols]

theorem applyList_length {n D : ℕ} (pfx : String) (cid : ℚ)
    (coords : Matrix (Fin n) (Fin D) ℚ) :
    ∀ (l : List (Fin n × Fin D)) (t : Table),
      (applyList pfx cid coords l t).rows.length = t.rows.length := by
  intro l
  induction l with
  | nil => intro t; rfl
  | cons p tl ih =>
    intro t
    rw [applyList, List.foldl_cons, ← applyList, ih, setCell_length]

theorem applyList_untouched {n D : ℕ} {pfx : String} {cid : ℚ}
    {coords : Matrix (Fin n) (Fin D) ℚ} {j : ℕ} {r : String → ℚ}
    (hr : r "chain__" ≠ cid) :
    ∀ (l : List (Fin n × Fin D)) (t : Table), t.rows.get? j = some r →
      (applyList pfx cid coords l t).rows.get? j = some r := by
  intro l
  induction l with
  | nil => intro t hrow; exact hrow
  | cons p tl ih =>
    intro t hrow
    rw [applyList, List.foldl_cons, ← applyList]
    exact ih _ (setCell_untouched hrow hr)

theorem applyList_cellAt_frame {n D : ℕ} {pfx : String} {cid : ℚ}
    {coords : Matrix (Fin n) (Fin D) ℚ} {nm2 : String} {j : ℕ} :
    ∀ (l : List (Fin n × Fin D)) (t : Table),
      (∀ p ∈ l, nm2 ≠ paramName pfx p.1.val p.2.val) →
      cellAt (applyList pfx cid coords l t) j nm2 = cellAt t j nm2 := by
  intro l
  induction l with
  | nil => intro t _; rfl
  | cons p tl ih =>
    intro t hne
    rw [applyList, List.foldl_cons, ← applyList]
    rw [ih _ (fun q hq => hne q (by simp [hq]))]
    exact setCell_cellAt_ne (hne p (by simp)) j

theorem applyList_effect {n D : ℕ} {pfx : String} {cid : ℚ}
    {coords : Matrix (Fin n) (Fin D) ℚ} {j : ℕ} :
    ∀ (l : List (Fin n × Fin D)) (t : Table) (r : String → ℚ),
      (l.map (fun p => paramName pfx p.1.val p.2.val)).Nodup →
      (∀ p ∈ l, paramName pfx p.1.val p.2.val ≠ "chain__") →
      t.rows.get? j = some r → r "chain__" = cid →
      ∃ r2, (applyList pfx cid coords l t).rows.get? j = some r2 ∧
        r2 "chain__" = r "chain__" ∧
        (∀ p ∈ l, paramName pfx p.1.val p.2.val ∈ t.cols →
          r2 (paramName pfx p.1.val p.2.val) = coords p.1 p.2) ∧
        (∀ p ∈ l, paramName pfx p.1.val p.2.val ∉ t.cols →
          r2 (paramName pfx p.1.val p.2.val) = r (paramName pfx p.1.val p.2.val)) ∧
        (∀ nm2, (∀ p ∈ l, nm2 ≠ paramName pfx p.1.val p.2.val) →
          r2 nm2 = r nm2) := by
  intro l
  induction l with
  | nil =>
    intro t r _ _ hrow _
    exact ⟨r, hrow, rfl, by simp, by simp, fun _ _ => rfl⟩
  | cons p tl ih =>
    intro t r hnodup hnc hrow hchain
    rw [applyList, List.foldl_cons, ← applyList]
    obtain ⟨r1, hrow1, hfr1, hset1, hkeep1⟩ :=
      @setCell_step _ _ _ cid (paramName pfx p.1.val p.2.val)
        (coords p.1 p.2) hrow
    have hchain1 : r1 "chain__" = r "chain__" :=
      hfr1 "chain__" (fun h => hnc p (by simp) h.symm)
    have hnotin : paramName pfx p.1.val p.2.val ∉
        tl.map (fun q => paramName pfx q.1.val q.2.val) :=
      (List.nodup_cons.mp (by simpa using hnodup)).1
    obtain ⟨r2, hrow2, hchain2, hset2, hkeep2, hfr2⟩ := ih
      (setCell t cid (paramName pfx p.1.val p.2.val) (coords p.1 p.2)) r1
      (List.nodup_cons.mp (by simpa using hnodup)).2
      (fun q hq => hnc q (by simp [hq])) hrow1 (by rw [hchain1, hchain])
    have hcols : (setCell t cid (paramName pfx p.1.val p.2.val)
        (coords p.1 p.2)).cols = t.cols := setCell_cols _ _ _ _
    refine ⟨r2, hrow2, by rw [hchain2, hchain1], ?_, ?_, ?_⟩
    · intro q hq hqmem
      rcases List.mem_cons.mp hq with rfl | hq2
      · have : r2 (paramName pfx q.1.val q.2.val) = r1 (paramName pfx q.1.val q.2.val) := by
          apply hfr2
          intro q2 hq2 heq
          exact hnotin (heq ▸ List.mem_map_of_mem _ hq2)
        rw [this]
        exact hset1 hqmem hchain
      · exact hset2 q hq2 (by rw [hcols]; exact hqmem)
    · intro q hq hqmem
      rcases List.mem_cons.mp hq with rfl | hq2
      · have : r2 (paramName pfx q.1.val q.2.val) = r1 (paramName pfx q.1.val q.2.val) := by
          apply hfr2
          intro q2 hq2 heq
          exact hnotin (heq ▸ List.mem_map_of_mem _ hq2)
        rw [this]
        exact hkeep1 (Or.inl hqmem)
      · rw [hkeep2 q hq2 (by rw [hcols]; exact hqmem)]
        exact hfr1 _ (fun heq => hnotin (heq ▸ List.mem_map_of_mem _ hq2))
    · intro nm2 hnm2
      rw [hfr2 nm2 (fun q hq => hnm2 q (by simp [hq]))]
      exact hfr1 nm2 (hnm2 p (by simp))

theorem idPairs_nodup (n D : ℕ) : (idPairs n D).Nodup := by
  have h : idPairs n D = List.finRange n ×ˢ List.finRange D := rfl
  rw [h]
  exact List.Nodup.product (List.nodup_finRange n) (List.nodup_finRange D)

theorem mem_idPairs {n D : ℕ} (i : Fin n) (d : Fin D) : (i, d) ∈ idPairs n D := by
  rw [idPairs, List.mem_flatMap]
  exact ⟨i, List.mem_finRange i, List.mem_map.mpr ⟨d, List.mem_finRange d, rfl⟩⟩

theorem names_nodup {n D : ℕ} (pfx : String) :
    ((idPairs n D).map (fun p => paramName pfx p.1.val p.2.val)).Nodup := by
  refine List.Nodup.map_on ?_ (idPairs_nodup n D)
  intro x _ y _ hxy
  obtain ⟨h1, h2⟩ := paramName_inj hxy
  exact Prod.ext (Fin.val_injective h1) (Fin.val_injective h2)

theorem famFold_cols {n D : ℕ} (pfx : String) :
    ∀ (maps : List (ℚ × Matrix (Fin n) (Fin D) ℚ)) (t : Table),
      (maps.foldl (fun acc cm => applyCoords acc pfx cm.1 cm.2) t).cols = t.cols := by
  intro maps
  induction maps with
  | nil => intro t; rfl
  | cons q tl ih =>
    intro t
    rw [List.foldl_cons, ih, applyCoords, applyList_cols]

theorem famFold_length {n D : ℕ} (pfx : String) :
    ∀ (maps : List (ℚ × Matrix (Fin n) (Fin D) ℚ)) (t : Table),
      (maps.foldl (fun acc cm => applyCoords acc pfx cm.1 cm.2) t).rows.length =
        t.rows.length := by
  intro maps
  induction maps with
  | nil => intro t; rfl
  | cons q tl ih =>
    intro t
    rw [List.foldl_cons, ih, applyCoords, applyList_length]

theorem famFold_untouched {n D : ℕ} {pfx : String} {j : ℕ} {r : String → ℚ} :
    ∀ (maps : List (ℚ × Matrix (Fin n) (Fin D) ℚ)) (t : Table),
      t.rows.get? j = some r → (∀ q ∈ maps, q.1 ≠ r "chain__") →
      (maps.foldl (fun acc cm => applyCoords acc pfx cm.1 cm.2) t).rows.get? j =
        some r := by
  intro maps
  induction maps with
  | nil => intro t hrow _; exact hrow
  | cons q tl ih =>
    intro t hrow hne
    rw [List.foldl_cons]
    refine ih _ ?_ (fun q2 hq2 => hne q2 (by simp [hq2]))
    rw [applyCoords]
    exact applyList_untouched (fun h => hne q (by simp) h.symm) _ _ hrow

theorem famFold_cellAt_frame {n D : ℕ} {pfx : String} {nm2 : String} {j : ℕ}
    (hnm2 : ∀ i d : ℕ, nm2 ≠ paramName pfx i d) :
    ∀ (maps : List (ℚ × Matrix (Fin n) (Fin D) ℚ)) (t : Table),
      cellAt (maps.foldl (fun acc cm => applyCoords acc pfx cm.1 cm.2) t) j nm2 =
        cellAt t j nm2 := by
  intro maps
  induction maps with
  | nil => intro t; rfl
  | cons q tl ih =>
    intro t
    rw [List.foldl_cons, ih, applyCoords,
      applyList_cellAt_frame _ _ (fun p _ => hnm2 p.1.val p.2.val)]

theorem famFold_effect {n D : ℕ} {pfx : String} {j : ℕ}
    (hchain : ∀ i d : ℕ, paramName pfx i d ≠ "chain__")
    (maps : List (ℚ × Matrix (Fin n) (Fin D) ℚ)) (t : Table) (r : String → ℚ)
    (c : ℚ) (coords : Matrix (Fin n) (Fin D) ℚ)
    (hnodup : (maps.map Prod.fst).Nodup) (hmem : (c, coords) ∈ maps)
    (hrow : t.rows.get? j = some r) (hr : r "chain__" = c) :
    ∃ r2, (maps.foldl (fun acc cm => applyCoords acc pfx cm.1 cm.2) t).rows.get? j =
        some r2 ∧
      r2 "chain__" = r "chain__" ∧
      (∀ (i : Fin n) (d : Fin D), paramName pfx i.val d.val ∈ t.cols →
        r2 (paramName pfx i.val d.val) = coords i d) ∧
      (∀ (i : Fin n) (d : Fin D), paramName pfx i.val d.val ∉ t.cols →
        r2 (paramName pfx i.val d.val) = r (paramName pfx i.val d.val)) ∧
      (∀ nm2, (∀ i d : ℕ, nm2 ≠ paramName pfx i d) → r2 nm2 = r nm2) := by
  obtain ⟨l1, l2, rfl⟩ := List.append_of_mem hmem
  rw [List.map_append, List.map_cons] at hnodup
  obtain ⟨hn1, hn2, hdisj⟩ := List.nodup_append.mp hnodup
  have hc2 : c ∉ l2.map Prod.fst := (List.nodup_cons.mp hn2).1
  have hc1 : c ∉ l1.map Prod.fst := fun hin => hdisj hin (by simp)
  rw [List.foldl_append, List.foldl_cons]
  have hrow1 : (l1.foldl (fun acc cm => applyCoords acc pfx cm.1 cm.2) t).rows.get? j
      = some r := by
    refine famFold_untouched l1 t hrow (fun q hq => ?_)
    rw [hr]
    exact fun h => hc1 (h ▸ List.mem_map_of_mem _ hq)
  have hcols1 : (l1.foldl (fun acc cm => applyCoords acc pfx cm.1 cm.2) t).cols
      = t.cols := famFold_cols pfx l1 t
  rw [applyCoords]
  obtain ⟨r2, hrow2, hchain2, hset2, hkeep2, hfr2⟩ :=
    applyList_effect (idPairs n D) _ r (names_nodup pfx)
      (fun p _ => hchain p.1.val p.2.val) hrow1 (by rw [hr])
  refine ⟨r2, ?_, hchain2, ?_, ?_, ?_⟩
  · refine famFold_untouched l2 _ hrow2 (fun q hq => ?_)
    rw [hchain2, hr]
    exact fun h => hc2 (h ▸ List.mem_map_of_mem _ hq)
  · intro i d hmem2
    exact hset2 (i, d) (mem_idPairs i d) (by rw [hcols1]; exact hmem2)
  · intro i d hmem2
    exact hkeep2 (i, d) (mem_idPairs i d) (by rw [hcols1]; exact hmem2)
  · intro nm2 hnm2
    exact hfr2 nm2 (fun p _ => hnm2 p.1.val p.2.val)

/-- C4: after rewriting, every draw row of a chain `c` covered by the
aligned maps carries, in every coordinate column `xi[i+1,d+1]` or
`zt_centered[i+1,d+1]` that exists in the table, the constant aligned value
`coords[i,d]`, regardless of the row's original value; an absent target
column is skipped silently, leaving that cell unchanged. -/
theorem rewrite_overwrite_complete {np ni D : ℕ} (t : Table)
    (apc : List (ℚ × Matrix (Fin np) (Fin D) ℚ))
    (aic : List (ℚ × Matrix (Fin ni) (Fin D) ℚ))
    (hnp : (apc.map Prod.fst).Nodup) (hni : (aic.map Prod.fst).Nodup)
    (c : ℚ) (pcoords : Matrix (Fin np) (Fin D) ℚ)
    (icoords : Matrix (Fin ni) (Fin D) ℚ)
    (hcp : (c, pcoords) ∈ apc) (hci : (c, icoords) ∈ aic)
    (j : ℕ) (r : String → ℚ)
    (hrow : t.rows.get? j = some r) (hr : r "chain__" = c) :
    ∃ r2, (create_aligned_draws_dataframe t apc aic).rows.get? j = some r2 ∧
      r2 "chain__" = c ∧
      (∀ (i : Fin np) (d : Fin D), paramName "xi" i.val d.val ∈ t.cols →
        r2 (paramName "xi" i.val d.val) = pcoords i d) ∧
      (∀ (i : Fin np) (d : Fin D), paramName "xi" i.val d.val ∉ t.cols →
        r2 (paramName "xi" i.val d.val) = r (paramName "xi" i.val d.val)) ∧
      (∀ (i : Fin ni) (d : Fin D), paramName "zt_centered" i.val d.val ∈ t.cols →
        r2 (paramName "zt_centered" i.val d.val) = icoords i d) ∧
      (∀ (i : Fin ni) (d : Fin D), paramName "zt_centered" i.val d.val ∉ t.cols →
        r2 (paramName "zt_centered" i.val d.val) =
          r (paramName "zt_centered" i.val d.val)) := by
  obtain ⟨r1, hrow1, hchain1, hset1, hkeep1, hfr1⟩ :=
    famFold_effect xi_ne_chain apc t r c pcoords hnp hcp hrow hr
  have hcols1 : (apc.foldl (fun acc cm => applyCoords acc "xi" cm.1 cm.2) t).cols
      = t.cols := famFold_cols _ _ _
  obtain ⟨r2, hrow2, hchain2, hset2, hkeep2, hfr2⟩ :=
    famFold_effect zt_ne_chain aic _ r1 c icoords hni hci hrow1
      (by rw [hchain1, hr])
  rw [create_aligned_draws_dataframe]
  refine ⟨r2, hrow2, by rw [hchain2, hchain1, hr], ?_, ?_, ?_, ?_⟩
  · intro i d hm
    rw [hfr2 _ (fun i2 d2 => xi_ne_zt i.val d.val i2 d2), hset1 i d hm]
  · intro i d hm
    rw [hfr2 _ (fun i2 d2 => xi_ne_zt i.val d.val i2 d2), hkeep1 i d hm]
  · intro i d hm
    exact hset2 i d (by rw [hcols1]; exact hm)
  · intro i d hm
    rw [hkeep2 i d (by rw [hcols1]; exact hm)]
    exact hfr1 _ (fun i2 d2 h => xi_ne_zt i2 d2 i.val d.val h.symm)

/-- Witness for C4: concrete table and aligned maps, chain 2's draw row
gets the aligned values in both coordinate columns. -/
theorem rewrite_overwrite_complete_witness :
    (apcW.map Prod.fst).Nodup ∧ (aicW.map Prod.fst).Nodup ∧
    (2, Mq 20) ∈ apcW ∧ (2, Mq 40) ∈ aicW ∧
    tW.rows.get? 2 = some (rowW 2 6 8) ∧ rowW 2 6 8 "chain__" = 2 ∧
    ∃ r2, (create_aligned_draws_dataframe tW apcW aicW).rows.get? 2 = some r2 ∧
      r2 "chain__" = 2 ∧
      (∀ (i : Fin 1) (d : Fin 1), paramName "xi" i.val d.val ∈ tW.cols →
        r2 (paramName "xi" i.val d.val) = Mq 20 i d) ∧
      (∀ (i : Fin 1) (d : Fin 1), paramName "xi" i.val d.val ∉ tW.cols →
        r2 (paramName "xi" i.val d.val) = rowW 2 6 8 (paramName "xi" i.val d.val)) ∧
      (∀ (i : Fin 1) (d : Fin 1), paramName "zt_centered" i.val d.val ∈ tW.cols →
        r2 (paramName "zt_centered" i.val d.val) = Mq 40 i d) ∧
      (∀ (i : Fin 1) (d : Fin 1), paramName "zt_centered" i.val d.val ∉ tW.cols →
        r2 (paramName "zt_centered" i.val d.val) =
          rowW 2 6 8 (paramName "zt_centered" i.val d.val)) :=
  ⟨by decide, by decide, by decide, by decide, rfl, by decide,
    rewrite_overwrite_complete tW apcW aicW (by decide) (by decide) 2
      (Mq 20) (Mq 40) (by decide) (by decide) 2 (rowW 2 6 8) rfl (by decide)⟩

/-- C5: the rewriter returns a table with exactly the same column set and
row count as its input, and every column that does not match the
coordinate-parameter naming pattern of either family — including the chain
column — passes through with every cell unchanged.  (The input table itself
is never mutated: the rewriter is a pure function of it.) -/
theorem rewrite_frame_preservation {np ni D : ℕ} (t : Table)
    (apc : List (ℚ × Matrix (Fin np) (Fin D) ℚ))
    (aic : List (ℚ × Matrix (Fin ni) (Fin D) ℚ)) :
    (create_aligned_draws_dataframe t apc aic).cols = t.cols ∧
    (create_aligned_draws_dataframe t apc aic).rows.length = t.rows.length ∧
    ∀ nm2, (∀ i d : ℕ, nm2 ≠ paramName "xi" i d) →
      (∀ i d : ℕ, nm2 ≠ paramName "zt_centered" i d) →
      ∀ j, cellAt (create_aligned_draws_dataframe t apc aic) j nm2 =
        cellAt t j nm2 := by
  rw [create_aligned_draws_dataframe]
  refine ⟨?_, ?_, ?_⟩
  · rw [famFold_cols, famFold_cols]
  · rw [famFold_length, famFold_length]
  · intro nm2 hx hz j
    rw [famFold_cellAt_frame hz, famFold_cellAt_frame hx]

/-- Witness for C5: the chain column of a concrete rewritten table is
unchanged. -/
theorem rewrite_frame_preservation_witness :
    (∀ i d : ℕ, "chain__" ≠ paramName "xi" i d) ∧
    (∀ i d : ℕ, "chain__" ≠ paramName "zt_centered" i d) ∧
    cellAt (create_aligned_draws_dataframe tW apcW aicW) 0 "chain__" =
      cellAt tW 0 "chain__" :=
  ⟨fun i d h => xi_ne_chain i d h.symm,
    fun i d h => zt_ne_chain i d h.symm,
    (rewrite_frame_preservation tW apcW aicW).2.2 "chain__"
      (fun i d h => xi_ne_chain i d h.symm)
      (fun i d h => zt_ne_chain i d h.symm) 0⟩

/-- C10: a draw row whose chain identifier is a key of neither aligned
coordinate map passes through the rewriter with every cell equal to its
original value, coordinate columns included. -/
theorem rewrite_untouched_chains {np ni D : ℕ} (t : Table)
    (apc : List (ℚ × Matrix (Fin np) (Fin D) ℚ))
    (aic : List (ℚ × Matrix (Fin ni) (Fin D) ℚ))
    (j : ℕ) (r : String → ℚ) (hrow : t.rows.get? j = some r)
    (hp : ∀ q ∈ apc, q.1 ≠ r "chain__") (hi : ∀ q ∈ aic, q.1 ≠ r "chain__") :
    (create_aligned_draws_dataframe t apc aic).rows.get? j = some r := by
  rw [create_aligned_draws_dataframe]
  exact famFold_untouched aic _ (famFold_untouched apc t hrow hp) hi

/-- Witness for C10: chain 3 is covered by neither aligned map, and its
draw row is returned untouched. -/
theorem rewrite_untouched_chains_witness :
    tW3.rows.get? 0 = some (rowW 3 5 7) ∧
    (∀ q ∈ apcW, q.1 ≠ rowW 3 5 7 "chain__") ∧
    (∀ q ∈ aicW, q.1 ≠ rowW 3 5 7 "chain__") ∧
    (create_aligned_draws_dataframe tW3 apcW aicW).rows.get? 0 =
      some (rowW 3 5 7) :=
  ⟨rfl, by decide, by decide,
    rewrite_untouched_chains tW3 apcW aicW 0 (rowW 3 5 7) rfl
      (by decide) (by decide)⟩

/-! Properties of the aligner's chain bookkeeping. -/

theorem splitTop_vstack {np ni D : ℕ} (P : Matrix (Fin np) (Fin D) ℝ)
    (Im : Matrix (Fin ni) (Fin D) ℝ) : splitTop (vstack P Im) = P := by
  ext i d
  have hi : (i : ℕ) < np := i.2
  simp [splitTop, vstack, hi]

theorem splitBot_vstack {np ni D : ℕ} (P : Matrix (Fin np) (Fin D) ℝ)
    (Im : Matrix (Fin ni) (Fin D) ℝ) : splitBot (vstack P Im) = Im := by
  ext i d
  have hi : ¬ (np + (i : ℕ) < np) := by omega
  simp only [splitBot, vstack, Matrix.of_apply, dif_neg hi]
  congr 1
  apply Fin.ext
  show np + (i : ℕ) - np = (i : ℕ)
  omega

theorem alignLoop_prefix {np ni D : ℕ}
    {refM : Matrix (Fin (np + ni)) (Fin D) ℝ}
    {ic : List (ℚ × Matrix (Fin ni) (Fin D) ℝ)} {refId : ℚ} :
    ∀ {l : List (ℚ × Matrix (Fin np) (Fin D) ℝ)} {acc res : AlignResult np ni D},
      alignLoop refM ic refId l acc = .ok res →
      ∃ s1 s2 s3, res.personOut = acc.personOut ++ s1 ∧
        res.itemOut = acc.itemOut ++ s2 ∧ res.log = acc.log ++ s3 := by
  intro l
  induction l with
  | nil =>
    intro acc res h
    rw [alignLoop] at h
    simp only [Except.ok.injEq] at h
    exact ⟨[], [], [], by simp [← h], by simp [← h], by simp [← h]⟩
  | cons cm rest ih =>
    intro acc res h
    rw [alignLoop] at h
    split at h
    · exact ih h
    · split at h
      · exact absurd h (by simp)
      · split at h
        · exact absurd h (by simp)
        · rename_i std algn disp hpc
          obtain ⟨s1, s2, s3, h1, h2, h3⟩ := ih h
          exact ⟨(cm.1, splitTop algn) :: s1, (cm.1, splitBot algn) :: s2,
            (cm.1, disp) :: s3, by simp [h1], by simp [h2], by simp [h3]⟩

theorem alignLoop_mem {np ni D : ℕ}
    {refM : Matrix (Fin (np + ni)) (Fin D) ℝ}
    {ic : List (ℚ × Matrix (Fin ni) (Fin D) ℝ)} {refId : ℚ} {c : ℚ}
    {xp : Matrix (Fin np) (Fin D) ℝ} {xitm : Matrix (Fin ni) (Fin D) ℝ} :
    ∀ {l : List (ℚ × Matrix (Fin np) (Fin D) ℝ)} {acc res : AlignResult np ni D},
      alignLoop refM ic refId l acc = .ok res →
      (c, xp) ∈ l → c ≠ refId → lookupQ ic c = some xitm →
      ∃ std algn disp,
        procrustes refM (vstack xp xitm) = .ok (std, algn, disp) ∧
        (c, splitTop algn) ∈ res.personOut ∧
        (c, splitBot algn) ∈ res.itemOut ∧ (c, disp) ∈ res.log := by
  intro l
  induction l with
  | nil => intro acc res _ hmem; exact absurd hmem (by simp)
  | cons cm rest ih =>
    intro acc res h hmem hc hlic
    rw [alignLoop] at h
    rcases List.mem_cons.mp hmem with heq | hmem2
    · have hcm1 : cm.1 = c := by rw [← heq]
      have hcm2 : cm.2 = xp := by rw [← heq]
      split at h
      · rename_i hif
        exact absurd (hcm1 ▸ hif) hc
      · split at h
        · rename_i hic
          rw [hcm1, hlic] at hic
          exact absurd hic (by simp)
        · rename_i xitm2 hic
          rw [hcm1] at hic
          rw [hic] at hlic
          have hxe : xitm2 = xitm := Option.some.inj hlic
          subst hxe
          split at h
          · exact absurd h (by simp)
          · rename_i std algn disp hpc
            obtain ⟨s1, s2, s3, h1, h2, h3⟩ := alignLoop_prefix h
            refine ⟨std, algn, disp, ?_, ?_, ?_, ?_⟩
            · rw [← hcm2]; exact hpc
            · rw [h1, hcm1]; simp
            · rw [h2, hcm1]; simp
            · rw [h3, hcm1]; simp
    · split at h
      · exact ih h hmem2 hc hlic
      · split at h
        · exact absurd h (by simp)
        · split at h
          · exact absurd h (by simp)
          · exact ih h hmem2 hc hlic

theorem alignLoop_item_found {np ni D : ℕ}
    {refM : Matrix (Fin (np + ni)) (Fin D) ℝ}
    {ic : List (ℚ × Matrix (Fin ni) (Fin D) ℝ)} {refId : ℚ} {c : ℚ}
    {xp : Matrix (Fin np) (Fin D) ℝ} :
    ∀ {l : List (ℚ × Matrix (Fin np) (Fin D) ℝ)} {acc res : AlignResult np ni D},
      alignLoop refM ic refId l acc = .ok res →
      (c, xp) ∈ l → c ≠ refId →
      ∃ xitm, lookupQ ic c = some xitm := by
  intro l
  induction l with
  | nil => intro acc res _ hmem; exact absurd hmem (by simp)
  | cons cm rest ih =>
    intro acc res h hmem hc
    rw [alignLoop] at h
    rcases List.mem_cons.mp hmem with heq | hmem2
    · have hcm1 : cm.1 = c := by rw [← heq]
      split at h
      · rename_i hif
        exact absurd (hcm1 ▸ hif) hc
      · split at h
        · exact absurd h (by simp)
        · rename_i xitm2 hic
          exact ⟨xitm2, by rw [← hcm1]; exact hic⟩
    · split at h
      · exact ih h hmem2 hc
      · split at h
        · exact absurd h (by simp)
        · split at h
          · exact absurd h (by simp)
          · exact ih h hmem2 hc

theorem align_ok_loop {np ni D : ℕ}
    {pc : List (ℚ × Matrix (Fin np) (Fin D) ℝ)}
    {ic : List (ℚ × Matrix (Fin ni) (Fin D) ℝ)} {refId : ℚ}
    {res : AlignResult np ni D} {pr : Matrix (Fin np) (Fin D) ℝ}
    {ir : Matrix (Fin ni) (Fin D) ℝ}
    (hok : align_latent_spaces pc ic refId = .ok res)
    (hpr : lookupQ pc refId = some pr) (hir : lookupQ ic refId = some ir) :
    alignLoop (vstack pr ir) ic refId pc ⟨[(refId, pr)], [(refId, ir)], []⟩ =
      .ok res := by
  rw [align_latent_spaces, hpr, hir] at hok
  exact hok

/-- C8: if the reference chain identifier is missing from the person map or
from the item map, `align_latent_spaces` fails with the key error for the
reference chain and produces no output maps. -/
theorem align_reference_not_found {np ni D : ℕ}
    (pc : List (ℚ × Matrix (Fin np) (Fin D) ℝ))
    (ic : List (ℚ × Matrix (Fin ni) (Fin D) ℝ)) (refId : ℚ)
    (h : lookupQ pc refId = none ∨ lookupQ ic refId = none) :
    align_latent_spaces pc ic refId = .error (.keyError refId) := by
  rw [align_latent_spaces]
  rcases h with h | h
  · rw [h]
  · rw [h]
    cases hpc : lookupQ pc refId <;> rfl

/-- Witness for C8: aligning with empty coordinate maps fails with the
reference-chain key error. -/
theorem align_reference_not_found_witness :
    lookupQ ([] : List (ℚ × Matrix (Fin 1) (Fin 1) ℝ)) 1 = none ∧
    align_latent_spaces ([] : List (ℚ × Matrix (Fin 1) (Fin 1) ℝ))
      ([] : List (ℚ × Matrix (Fin 1) (Fin 1) ℝ)) 1 = .error (.keyError 1) :=
  ⟨rfl, align_reference_not_found _ _ 1 (Or.inl rfl)⟩

/-- Counterexample for C9: the person and item maps cover different chain
sets (chain 2 appears only in the item map), yet `align_latent_spaces`
succeeds, silently ignoring the extra item chain, instead of failing with a
chain-set-mismatch error. -/
theorem align_chain_mismatch_counterexample :
    (2 : ℚ) ∈ ic9.map Prod.fst ∧ (2 : ℚ) ∉ pc9.map Prod.fst ∧
    align_latent_spaces pc9 ic9 1 = .ok res9 := by
  refine ⟨by decide, by decide, ?_⟩
  rfl

/-- C9 (amended): only a chain of the person map that is absent from the
item map makes `align_latent_spaces` fail (with an error surfaced to the
caller and no result); chains present only in the item map are silently
ignored, because the loop iterates over the person map's keys. -/
theorem align_chain_mismatch_error {np ni D : ℕ}
    (pc : List (ℚ × Matrix (Fin np) (Fin D) ℝ))
    (ic : List (ℚ × Matrix (Fin ni) (Fin D) ℝ)) (refId c : ℚ)
    (xp : Matrix (Fin np) (Fin D) ℝ)
    (hmem : (c, xp) ∈ pc) (hc : c ≠ refId) (hmiss : lookupQ ic c = none) :
    ∃ e, align_latent_spaces pc ic refId = .error e := by
  cases halign : align_latent_spaces pc ic refId with
  | error e => exact ⟨e, rfl⟩
  | ok res =>
    exfalso
    rw [align_latent_spaces] at halign
    split at halign
    · obtain ⟨xitm, hx⟩ := alignLoop_item_found halign hmem hc
      rw [hmiss] at hx
      exact absurd hx (by simp)
    · exact absurd halign (by simp)

/-- Witness for C9 (amended): chain 2 of the person map is missing from the
item map, so alignment fails. -/
theorem align_chain_mismatch_error_witness :
    (2, cMat 1 1 2) ∈ pc9b ∧ (2 : ℚ) ≠ 1 ∧ lookupQ ic9b 2 = none ∧
    ∃ e, align_latent_spaces pc9b ic9b 1 = .error e :=
  ⟨List.mem_cons_of_mem _ (List.mem_cons_self _ _), by norm_num, rfl,
    align_chain_mismatch_error pc9b ic9b 1 2 (cMat 1 1 2)
      (List.mem_cons_of_mem _ (List.mem_cons_self _ _)) (by norm_num) rfl⟩

/-- C3: whenever alignment succeeds, the reference chain's entries of both
output maps are exactly the input matrices of the reference chain — no
translation, rotation, reflection, or scaling is applied to them. -/
theorem align_reference_identity {np ni D : ℕ}
    (pc : List (ℚ × Matrix (Fin np) (Fin D) ℝ))
    (ic : List (ℚ × Matrix (Fin ni) (Fin D) ℝ)) (refId : ℚ)
    (res : AlignResult np ni D) (pr : Matrix (Fin np) (Fin D) ℝ)
    (ir : Matrix (Fin ni) (Fin D) ℝ)
    (hok : align_latent_spaces pc ic refId = .ok res)
    (hpr : lookupQ pc refId = some pr) (hir : lookupQ ic refId = some ir) :
    lookupQ res.personOut refId = some pr ∧
    lookupQ res.itemOut refId = some ir := by
  have hloop := align_ok_loop hok hpr hir
  obtain ⟨s1, s2, s3, h1, h2, h3⟩ := alignLoop_prefix hloop
  constructor
  · rw [h1]
    show lookupQ ((refId, pr) :: s1) refId = some pr
    simp [lookupQ]
  · rw [h2]
    show lookupQ ((refId, ir) :: s2) refId = some ir
    simp [lookupQ]

/-- Witness for C3: in a concrete successful alignment the reference
chain's output matrices are the input matrices themselves. -/
theorem align_reference_identity_witness :
    align_latent_spaces pc9 ic9 1 = .ok res9 ∧
    lookupQ pc9 1 = some (cMat 1 1 1) ∧ lookupQ ic9 1 = some (cMat 1 1 2) ∧
    lookupQ res9.personOut 1 = some (cMat 1 1 1) ∧
    lookupQ res9.itemOut 1 = some (cMat 1 1 2) :=
  ⟨rfl, rfl, rfl,
    (align_reference_identity pc9 ic9 1 res9 (cMat 1 1 1) (cMat 1 1 2)
      rfl rfl rfl).1,
    (align_reference_identity pc9 ic9 1 res9 (cMat 1 1 1) (cMat 1 1 2)
      rfl rfl rfl).2⟩

/-- C6: whenever alignment succeeds, each non-reference chain's output
person and item matrices are the top and bottom blocks of one
`(n_persons + n_items) × D` aligned matrix, and the vertical stack followed
by the split conserves all rows and preserves row order within each block,
so output shapes equal input shapes. -/
theorem align_shape_preservation {np ni D : ℕ}
    (pc : List (ℚ × Matrix (Fin np) (Fin D) ℝ))
    (ic : List (ℚ × Matrix (Fin ni) (Fin D) ℝ)) (refId c : ℚ)
    (res : AlignResult np ni D) (xp : Matrix (Fin np) (Fin D) ℝ)
    (xitm : Matrix (Fin ni) (Fin D) ℝ)
    (hok : align_latent_spaces pc ic refId = .ok res)
    (hmem : (c, xp) ∈ pc) (hc : c ≠ refId) (hlic : lookupQ ic c = some xitm) :
    ∃ algn : Matrix (Fin (np + ni)) (Fin D) ℝ,
      (c, splitTop algn) ∈ res.personOut ∧
      (c, splitBot algn) ∈ res.itemOut ∧
      splitTop (vstack xp xitm) = xp ∧ splitBot (vstack xp xitm) = xitm := by
  rw [align_latent_spaces] at hok
  split at hok
  · obtain ⟨std, algn, disp, hpc, hp, hi, hl⟩ := alignLoop_mem hok hmem hc hlic
    exact ⟨algn, hp, hi, splitTop_vstack _ _, splitBot_vstack _ _⟩
  · exact absurd hok (by simp)

/-! The Procrustes analysis itself. -/

open Matrix

theorem frobNormSq_nonneg {m D : ℕ} (M : Matrix (Fin m) (Fin D) ℝ) :
    0 ≤ frobNormSq M :=
  Finset.sum_nonneg fun _ _ => Finset.sum_nonneg fun _ _ => sq_nonneg _

theorem trace_eq_sum {m D : ℕ} (U V : Matrix (Fin m) (Fin D) ℝ) :
    Matrix.trace (Uᵀ * V) = ∑ i, ∑ d, U i d * V i d := by
  rw [Matrix.trace]
  simp only [Matrix.diag, Matrix.mul_apply, Matrix.transpose_apply]
  exact Finset.sum_comm

theorem frobNormSq_eq_trace {m D : ℕ} (M : Matrix (Fin m) (Fin D) ℝ) :
    frobNormSq M = Matrix.trace (Mᵀ * M) := by
  rw [trace_eq_sum, frobNormSq]
  simp [sq]

theorem frobNormSq_sub_expand {m D : ℕ} (U V : Matrix (Fin m) (Fin D) ℝ) :
    frobNormSq (U - V) =
      frobNormSq U - 2 * Matrix.trace (Uᵀ * V) + frobNormSq V := by
  rw [trace_eq_sum]
  simp only [frobNormSq, Matrix.sub_apply]
  rw [Finset.mul_sum]
  simp_rw [Finset.mul_sum]
  rw [← Finset.sum_sub_distrib, ← Finset.sum_add_distrib]
  refine Finset.sum_congr rfl fun i _ => ?_
  rw [← Finset.sum_sub_distrib, ← Finset.sum_add_distrib]
  refine Finset.sum_congr rfl fun d _ => ?_
  ring

theorem frobNormSq_mul_orth {m D : ℕ} (A : Matrix (Fin m) (Fin D) ℝ)
    (T : Matrix (Fin D) (Fin D) ℝ) (hT : Tᵀ * T = 1) :
    frobNormSq (A * T) = frobNormSq A := by
  have hTT : T * Tᵀ = 1 := Matrix.mul_eq_one_comm.mp hT
  rw [frobNormSq_eq_trace, frobNormSq_eq_trace, Matrix.transpose_mul]
  rw [show Tᵀ * Aᵀ * (A * T) = Tᵀ * (Aᵀ * A * T) by
    rw [Matrix.mul_assoc, Matrix.mul_assoc]]
  rw [Matrix.trace_mul_comm, Matrix.mul_assoc, hTT, Matrix.mul_one]

theorem frobNormSq_eq_zero {m D : ℕ} {M : Matrix (Fin m) (Fin D) ℝ}
    (h : frobNormSq M = 0) : M = 0 := by
  ext i d
  have h1 := (Finset.sum_eq_zero_iff_of_nonneg
    (fun i _ => Finset.sum_nonneg fun d _ => sq_nonneg (M i d))).mp h i
    (Finset.mem_univ i)
  have h2 := (Finset.sum_eq_zero_iff_of_nonneg
    (fun d _ => sq_nonneg (M i d))).mp h1 d (Finset.mem_univ d)
  have h3 := (pow_eq_zero_iff two_ne_zero).mp h2
  simpa using h3

theorem finner_le_one {m D : ℕ} {U V : Matrix (Fin m) (Fin D) ℝ}
    (hU : frobNormSq U = 1) (hV : frobNormSq V = 1) :
    Matrix.trace (Uᵀ * V) ≤ 1 := by
  have h0 : 0 ≤ frobNormSq (U - V) := frobNormSq_nonneg _
  rw [frobNormSq_sub_expand, hU, hV] at h0
  linarith

theorem finner_eq_one_imp {m D : ℕ} {U V : Matrix (Fin m) (Fin D) ℝ}
    (hU : frobNormSq U = 1) (hV : frobNormSq V = 1)
    (h : Matrix.trace (Uᵀ * V) = 1) : U = V := by
  have h0 : frobNormSq (U - V) = 0 := by
    rw [frobNormSq_sub_expand, hU, hV, h]
    ring
  have := frobNormSq_eq_zero h0
  exact sub_eq_zero.mp this

theorem center_mul {m D : ℕ} (M : Matrix (Fin m) (Fin D) ℝ)
    (Q : Matrix (Fin D) (Fin D) ℝ) : center (M * Q) = center M * Q := by
  rw [center, center, Matrix.sub_mul, Matrix.smul_mul, Matrix.mul_assoc]

theorem frobNormSq_smul {m D : ℕ} (c : ℝ) (M : Matrix (Fin m) (Fin D) ℝ) :
    frobNormSq (c • M) = c ^ 2 * frobNormSq M := by
  simp only [frobNormSq, Matrix.smul_apply, smul_eq_mul, mul_pow, Finset.mul_sum]

theorem standardize_normSq {m D : ℕ} {M : Matrix (Fin m) (Fin D) ℝ}
    (h : frobNormSq (center M) ≠ 0) : frobNormSq (standardize M) = 1 := by
  have hnn : 0 ≤ frobNormSq (center M) := frobNormSq_nonneg _
  rw [standardize, frobNormSq_smul, inv_pow, Real.sq_sqrt hnn]
  exact inv_mul_cancel₀ h

theorem standardize_mul_orth {m D : ℕ} (M : Matrix (Fin m) (Fin D) ℝ)
    (Q : Matrix (Fin D) (Fin D) ℝ) (hQ : Qᵀ * Q = 1) :
    standardize (M * Q) = standardize M * Q := by
  rw [standardize, standardize, center_mul, frobNormSq_mul_orth _ _ hQ,
    Matrix.smul_mul]

theorem orth_mul_orth {D : ℕ} {Q R : Matrix (Fin D) (Fin D) ℝ}
    (hQ : Qᵀ * Q = 1) (hR : Rᵀ * R = 1) : (Q * Rᵀ)ᵀ * (Q * Rᵀ) = 1 := by
  have hRR : R * Rᵀ = 1 := Matrix.mul_eq_one_comm.mp hR
  rw [Matrix.transpose_mul, Matrix.transpose_transpose]
  rw [show R * Qᵀ * (Q * Rᵀ) = R * (Qᵀ * Q) * Rᵀ by
    rw [Matrix.mul_assoc, Matrix.mul_assoc, Matrix.mul_assoc]]
  rw [hQ, Matrix.mul_one, hRR]

theorem frobNormSq_zero {m D : ℕ} :
    frobNormSq (0 : Matrix (Fin m) (Fin D) ℝ) = 0 := by
  simp [frobNormSq]

theorem orthProc_rotated {m D : ℕ} (A : Matrix (Fin m) (Fin D) ℝ)
    (Q : Matrix (Fin D) (Fin D) ℝ) (hA : frobNormSq A = 1) (hQ : Qᵀ * Q = 1) :
    (orthogonal_procrustes A (A * Q)).2 •
      ((A * Q) * (orthogonal_procrustes A (A * Q)).1ᵀ) = A := by
  have key : ∀ R2 : Matrix (Fin D) (Fin D) ℝ, R2ᵀ * R2 = 1 →
      Matrix.trace (R2ᵀ * (Aᵀ * (A * Q))) ≤ 1 := by
    intro R2 hR2
    have hU : frobNormSq (A * R2) = 1 := by rw [frobNormSq_mul_orth _ _ hR2, hA]
    have hV : frobNormSq (A * Q) = 1 := by rw [frobNormSq_mul_orth _ _ hQ, hA]
    have hle := finner_le_one hU hV
    rw [show (A * R2)ᵀ * (A * Q) = R2ᵀ * (Aᵀ * (A * Q)) by
      rw [Matrix.transpose_mul, Matrix.mul_assoc]] at hle
    exact hle
  have hvalQ : Matrix.trace (Qᵀ * (Aᵀ * (A * Q))) = 1 := by
    rw [show Qᵀ * (Aᵀ * (A * Q)) = (A * Q)ᵀ * (A * Q) by
      rw [Matrix.transpose_mul, Matrix.mul_assoc]]
    rw [← frobNormSq_eq_trace, frobNormSq_mul_orth _ _ hQ, hA]
  have hEx : ∃ R : Matrix (Fin D) (Fin D) ℝ, Rᵀ * R = 1 ∧
      ∀ R2 : Matrix (Fin D) (Fin D) ℝ, R2ᵀ * R2 = 1 →
        Matrix.trace (R2ᵀ * (Aᵀ * (A * Q))) ≤
          Matrix.trace (Rᵀ * (Aᵀ * (A * Q))) :=
    ⟨Q, hQ, fun R2 hR2 => by rw [hvalQ]; exact key R2 hR2⟩
  rw [orthogonal_procrustes, dif_pos hEx]
  obtain ⟨hR0, hmax⟩ := hEx.choose_spec
  have hs0le : Matrix.trace (hEx.chooseᵀ * (Aᵀ * (A * Q))) ≤ 1 :=
    key hEx.choose hR0
  have hs0ge : 1 ≤ Matrix.trace (hEx.chooseᵀ * (Aᵀ * (A * Q))) := by
    have := hmax Q hQ
    rw [hvalQ] at this
    exact this
  have hs0 : Matrix.trace (hEx.chooseᵀ * (Aᵀ * (A * Q))) = 1 :=
    le_antisymm hs0le hs0ge
  have hT : (Q * hEx.chooseᵀ)ᵀ * (Q * hEx.chooseᵀ) = 1 := orth_mul_orth hQ hR0
  have htr : Matrix.trace (Aᵀ * (A * (Q * hEx.chooseᵀ))) = 1 := by
    rw [show Aᵀ * (A * (Q * hEx.chooseᵀ)) = (Aᵀ * (A * Q)) * hEx.chooseᵀ by
      rw [Matrix.mul_assoc, Matrix.mul_assoc]]
    rw [Matrix.trace_mul_comm]
    exact hs0
  have hVnorm : frobNormSq (A * (Q * hEx.chooseᵀ)) = 1 := by
    rw [frobNormSq_mul_orth _ _ hT, hA]
  have hAT : A = A * (Q * hEx.chooseᵀ) := finner_eq_one_imp hA hVnorm htr
  rw [hs0, one_smul, Matrix.mul_assoc, ← hAT]

theorem procrustes_rotate {m D : ℕ} (Y : Matrix (Fin m) (Fin D) ℝ)
    (Q : Matrix (Fin D) (Fin D) ℝ) (hm : m ≠ 0) (hD : D ≠ 0)
    (hQ : Qᵀ * Q = 1) (hY : frobNormSq (center Y) ≠ 0) :
    procrustes Y (Y * Q) = .ok (standardize Y, standardize Y, 0) := by
  have hcen : center (Y * Q) = center Y * Q := center_mul Y Q
  have hnorm : frobNormSq (center (Y * Q)) = frobNormSq (center Y) := by
    rw [hcen, frobNormSq_mul_orth _ _ hQ]
  rw [procrustes, if_neg (by push_neg; exact ⟨hm, hD⟩),
    if_neg (by rw [hnorm]; push_neg; exact ⟨hY, hY⟩)]
  have hB2 : standardize (Y * Q) = standardize Y * Q := standardize_mul_orth Y Q hQ
  have hBa : (orthogonal_procrustes (standardize Y) (standardize (Y * Q))).2 •
      (standardize (Y * Q) *
        (orthogonal_procrustes (standardize Y) (standardize (Y * Q))).1ᵀ) =
      standardize Y := by
    rw [hB2]
    exact orthProc_rotated (standardize Y) Q (standardize_normSq hY) hQ
  show Except.ok (standardize Y,
    (orthogonal_procrustes (standardize Y) (standardize (Y * Q))).2 •
      (standardize (Y * Q) *
        (orthogonal_procrustes (standardize Y) (standardize (Y * Q))).1ᵀ),
    frobNormSq (standardize Y -
      (orthogonal_procrustes (standardize Y) (standardize (Y * Q))).2 •
        (standardize (Y * Q) *
          (orthogonal_procrustes (standardize Y) (standardize (Y * Q))).1ᵀ))) = _
  rw [hBa, sub_self, frobNormSq_zero]

theorem procrustes_ok_inv {m D : ℕ} {A B : Matrix (Fin m) (Fin D) ℝ}
    {x : Matrix (Fin m) (Fin D) ℝ × Matrix (Fin m) (Fin D) ℝ × ℝ}
    (h : procrustes A B = .ok x) :
    m ≠ 0 ∧ D ≠ 0 ∧ frobNormSq (center A) ≠ 0 ∧
      frobNormSq (center B) ≠ 0 := by
  rw [procrustes] at h
  by_cases h1 : m = 0 ∨ D = 0
  · rw [if_pos h1] at h
    exact absurd h (by simp)
  · rw [if_neg h1] at h
    by_cases h2 : frobNormSq (center A) = 0 ∨ frobNormSq (center B) = 0
    · rw [if_pos h2] at h
      exact absurd h (by simp)
    · push_neg at h1 h2
      exact ⟨h1.1, h1.2, h2.1, h2.2⟩

/-- C1 (amended): whenever alignment succeeds and a non-reference chain's
stacked configuration equals the stacked reference configuration
transformed by an orthogonal matrix (a rotation, optionally composed with a
reflection), that chain's aligned output is the *standardized* reference
configuration — the stacked reference matrix centered and rescaled to unit
Frobenius norm — split into its person and item blocks, with reported
disparity exactly 0; the reference chain's own output matrices are the
unrescaled input matrices. -/
theorem align_rotation_recovery_standardized {np ni D : ℕ}
    (pc : List (ℚ × Matrix (Fin np) (Fin D) ℝ))
    (ic : List (ℚ × Matrix (Fin ni) (Fin D) ℝ)) (refId c : ℚ)
    (res : AlignResult np ni D)
    (xp pr : Matrix (Fin np) (Fin D) ℝ) (xitm ir : Matrix (Fin ni) (Fin D) ℝ)
    (Q : Matrix (Fin D) (Fin D) ℝ)
    (hok : align_latent_spaces pc ic refId = .ok res)
    (hpr : lookupQ pc refId = some pr) (hir : lookupQ ic refId = some ir)
    (hmem : (c, xp) ∈ pc) (hc : c ≠ refId) (hlic : lookupQ ic c = some xitm)
    (hQ : Qᵀ * Q = 1) (hrot : vstack xp xitm = vstack pr ir * Q) :
    (c, splitTop (standardize (vstack pr ir))) ∈ res.personOut ∧
    (c, splitBot (standardize (vstack pr ir))) ∈ res.itemOut ∧
    (c, (0 : ℝ)) ∈ res.log ∧
    lookupQ res.personOut refId = some pr ∧
    lookupQ res.itemOut refId = some ir := by
  have hloop := align_ok_loop hok hpr hir
  obtain ⟨std, algn, disp, hpc2, hp, hi, hl⟩ := alignLoop_mem hloop hmem hc hlic
  obtain ⟨hm, hD, hYA, -⟩ := procrustes_ok_inv hpc2
  rw [hrot, procrustes_rotate (vstack pr ir) Q hm hD hQ hYA] at hpc2
  simp only [Except.ok.injEq, Prod.mk.injEq] at hpc2
  obtain ⟨-, h2, h3⟩ := hpc2
  rw [← h2] at hp hi
  rw [← h3] at hl
  obtain ⟨s1, s2, s3, he1, he2, he3⟩ := alignLoop_prefix hloop
  refine ⟨hp, hi, hl, ?_, ?_⟩
  · rw [he1]
    show lookupQ ((refId, pr) :: s1) refId = some pr
    simp [lookupQ]
  · rw [he2]
    show lookupQ ((refId, ir) :: s2) refId = some ir
    simp [lookupQ]

/-! Evaluating a concrete alignment scenario. -/

theorem alignLoop_skip {np ni D : ℕ}
    {refM : Matrix (Fin (np + ni)) (Fin D) ℝ}
    {ic : List (ℚ × Matrix (Fin ni) (Fin D) ℝ)} {refId : ℚ}
    {cm : ℚ × Matrix (Fin np) (Fin D) ℝ}
    {rest : List (ℚ × Matrix (Fin np) (Fin D) ℝ)} {acc : AlignResult np ni D}
    (h : cm.1 = refId) :
    alignLoop refM ic refId (cm :: rest) acc =
      alignLoop refM ic refId rest acc := by
  rw [alignLoop, if_pos h]

theorem alignLoop_cons_ok {np ni D : ℕ}
    {refM : Matrix (Fin (np + ni)) (Fin D) ℝ}
    {ic : List (ℚ × Matrix (Fin ni) (Fin D) ℝ)} {refId : ℚ}
    {cm : ℚ × Matrix (Fin np) (Fin D) ℝ}
    {rest : List (ℚ × Matrix (Fin np) (Fin D) ℝ)} {acc : AlignResult np ni D}
    {xitm : Matrix (Fin ni) (Fin D) ℝ}
    {std algn : Matrix (Fin (np + ni)) (Fin D) ℝ} {disp : ℝ}
    (hne : cm.1 ≠ refId) (hic : lookupQ ic cm.1 = some xitm)
    (hpc : procrustes refM (vstack cm.2 xitm) = .ok (std, algn, disp)) :
    alignLoop refM ic refId (cm :: rest) acc =
      alignLoop refM ic refId rest
        ⟨acc.personOut ++ [(cm.1, splitTop algn)],
         acc.itemOut ++ [(cm.1, splitBot algn)],
         acc.log ++ [(cm.1, disp)]⟩ := by
  rw [alignLoop, if_neg hne]
  split
  · rename_i heq
    rw [hic] at heq
    exact absurd heq (by simp)
  · rename_i xitm2 heq
    rw [hic] at heq
    have hxe : xitm = xitm2 := Option.some.inj heq
    subst hxe
    split
    · rename_i e heq2
      rw [hpc] at heq2
      exact absurd heq2 (by simp)
    · rename_i fst algn2 disp2 heq2
      rw [hpc] at heq2
      simp only [Except.ok.injEq, Prod.mk.injEq] at heq2
      obtain ⟨-, ha, hd⟩ := heq2
      rw [ha, hd]

theorem onesMat_mul_refW : onesMat (2 + 2) * vstack Pmat Imat = 0 := by
  ext i d
  rw [Matrix.mul_apply, Fin.sum_univ_four]
  norm_num [onesMat, vstack, Pmat, Imat, cMat,
    show ((0 : Fin (2 + 2)) : ℕ) = 0 from rfl,
    show ((1 : Fin (2 + 2)) : ℕ) = 1 from rfl,
    show ((2 : Fin (2 + 2)) : ℕ) = 2 from rfl,
    show ((3 : Fin (2 + 2)) : ℕ) = 3 from rfl]

theorem center_refW : center (vstack Pmat Imat) = vstack Pmat Imat := by
  rw [center, onesMat_mul_refW, smul_zero, sub_zero]

theorem normSq_refW : frobNormSq (vstack Pmat Imat) = 4 := by
  rw [frobNormSq, Fin.sum_univ_four]
  norm_num [vstack, Pmat, Imat, cMat, Fin.sum_univ_one]

theorem normSq_center_refW : frobNormSq (center (vstack Pmat Imat)) ≠ 0 := by
  rw [center_refW, normSq_refW]
  norm_num

theorem std_refW : standardize (vstack Pmat Imat) = vstack Phalf Ihalf := by
  rw [standardize, center_refW, normSq_refW]
  rw [show Real.sqrt 4 = 2 by
    rw [show (4 : ℝ) = 2 ^ 2 by norm_num]
    exact Real.sqrt_sq (by norm_num)]
  ext i d
  rcases lt_or_ge (i : ℕ) 2 with hi | hi
  · simp [vstack, Pmat, Phalf, cMat, hi]
  · have hi2 : ¬ ((i : ℕ) < 2) := by omega
    simp [vstack, Imat, Ihalf, cMat, hi2]

theorem procrustes_W :
    procrustes (vstack Pmat Imat) (vstack Pmat Imat) =
      .ok (vstack Phalf Ihalf, vstack Phalf Ihalf, 0) := by
  have h := procrustes_rotate (vstack Pmat Imat) (1 : Matrix (Fin 1) (Fin 1) ℝ)
    (by norm_num) (by norm_num) (by simp) normSq_center_refW
  rw [Matrix.mul_one, std_refW] at h
  exact h

theorem align_eval_W : align_latent_spaces pcW icW 1 = .ok resW := by
  show alignLoop (vstack Pmat Imat) icW 1 ((1, Pmat) :: [((2 : ℚ), Pmat)])
    ⟨[(1, Pmat)], [(1, Imat)], []⟩ = .ok resW
  rw [alignLoop_skip (show ((1 : ℚ), Pmat).1 = (1 : ℚ) from rfl),
    alignLoop_cons_ok (show ((2 : ℚ), Pmat).1 ≠ (1 : ℚ) by norm_num)
      (show lookupQ icW ((2 : ℚ), Pmat).1 = some Imat from rfl) procrustes_W,
    alignLoop, splitTop_vstack, splitBot_vstack]
  rfl

/-- Counterexample for C1: chain 2's stacked configuration equals the
reference configuration transformed by the identity rotation, yet the
aligned output entry is 1/2 where the reference entry is 1 — the output is
the standardized (centered, unit-Frobenius-norm) reference, not the
reference itself, and the 1/2 gap is far beyond floating-point tolerance. -/
theorem align_rotation_recovery_counterexample :
    vstack Pmat Imat = vstack Pmat Imat * (1 : Matrix (Fin 1) (Fin 1) ℝ) ∧
    (1 : Matrix (Fin 1) (Fin 1) ℝ)ᵀ * 1 = 1 ∧
    align_latent_spaces pcW icW 1 = .ok resW ∧
    lookupQ pcW 2 = some Pmat ∧
    lookupQ resW.personOut 2 = some Phalf ∧
    Phalf 0 0 = 1 / 2 ∧ Pmat 0 0 = 1 ∧
    |Phalf 0 0 - Pmat 0 0| = 1 / 2 := by
  refine ⟨by rw [Matrix.mul_one], by simp, align_eval_W, ?_, ?_, rfl, rfl, ?_⟩
  · norm_num [lookupQ, pcW]
  · norm_num [lookupQ, resW]
  · rw [show Phalf 0 0 = (1 / 2 : ℝ) from rfl, show Pmat 0 0 = (1 : ℝ) from rfl,
      show (1 / 2 - 1 : ℝ) = -(1 / 2) by norm_num, abs_neg,
      abs_of_nonneg (by norm_num : (0 : ℝ) ≤ 1 / 2)]

/-- Witness for C1 (amended): in the concrete scenario with the identity
rotation, the aligned chain-2 output is the standardized reference split
into blocks, with reported disparity 0, and the reference chain's output is
its unrescaled input. -/
theorem align_rotation_recovery_standardized_witness :
    align_latent_spaces pcW icW 1 = .ok resW ∧
    vstack Pmat Imat = vstack Pmat Imat * (1 : Matrix (Fin 1) (Fin 1) ℝ) ∧
    (2, splitTop (standardize (vstack Pmat Imat))) ∈ resW.personOut ∧
    (2, splitBot (standardize (vstack Pmat Imat))) ∈ resW.itemOut ∧
    (2, (0 : ℝ)) ∈ resW.log ∧
    lookupQ resW.personOut 1 = some Pmat ∧
    lookupQ resW.itemOut 1 = some Imat := by
  have h := align_rotation_recovery_standardized pcW icW 1 2 resW Pmat Pmat
    Imat Imat 1 align_eval_W rfl rfl
    (List.mem_cons_of_mem _ (List.mem_cons_self _ _)) (by norm_num) rfl
    (by simp) (by rw [Matrix.mul_one])
  exact ⟨align_eval_W, by rw [Matrix.mul_one], h.1, h.2.1, h.2.2.1,
    h.2.2.2.1, h.2.2.2.2⟩

/-- Witness for C6: in the concrete scenario the chain-2 outputs are the
blocks of one stacked aligned matrix, and the stack/split round trip
returns the input blocks. -/
theorem align_shape_preservation_witness :
    align_latent_spaces pcW icW 1 = .ok resW ∧
    (2, Pmat) ∈ pcW ∧ (2 : ℚ) ≠ 1 ∧ lookupQ icW 2 = some Imat ∧
    ∃ algn : Matrix (Fin (2 + 2)) (Fin 1) ℝ,
      (2, splitTop algn) ∈ resW.personOut ∧
      (2, splitBot algn) ∈ resW.itemOut ∧
      splitTop (vstack Pmat Imat) = Pmat ∧ splitBot (vstack Pmat Imat) = Imat :=
  ⟨align_eval_W, List.mem_cons_of_mem _ (List.mem_cons_self _ _),
    by norm_num, rfl,
    align_shape_preservation pcW icW 1 2 resW Pmat Imat align_eval_W
      (List.mem_cons_of_mem _ (List.mem_cons_self _ _)) (by norm_num) rfl⟩

end UnifiedLS
